import Mathlib

/-!
Shallow embedding of the teleprompter-ultra core (frontend/src/stt/AssemblyAIProvider.ts
and frontend/src/hooks/useScriptMatcher.ts) and proofs about its
turn-reassembly, connection lifecycle, PCM16 encoding and script-matching logic.
-/

namespace Teleprompter

/-! ## Turn reassembly (AssemblyAIProvider: pendingTurns / nextTurnToDeliver / flushTurns)

`pendingTurns` is a JS `Map<number, string>`; we embed it as an association
list with unique keys, with `mapGet` / `mapSet` / `mapDelete` modelling
`Map.get` / `Map.set` / `Map.delete`. -/

/-- Lookup in the association list (JS `Map.get`, `undefined` becomes `none`). -/
def mapGet : List (Nat × String) → Nat → Option String
  | [], _ => none
  | (k, v) :: rest, key => if k = key then some v else mapGet rest key

/-- Insert or overwrite a key (JS `Map.set`). -/
def mapSet : List (Nat × String) → Nat → String → List (Nat × String)
  | [], key, val => [(key, val)]
  | (k, v) :: rest, key, val =>
    if k = key then (key, val) :: rest else (k, v) :: mapSet rest key val

/-- Remove a key (JS `Map.delete`). -/
def mapDelete : List (Nat × String) → Nat → List (Nat × String)
  | [], _ => []
  | (k, v) :: rest, key => if k = key then rest else (k, v) :: mapDelete rest key

/-- The transcript-accumulation step of `flushTurns`:
`this.transcriptSoFar ? transcriptSoFar + " " + text : text`. -/
def joinStep (s t : String) : String := if s = "" then t else s ++ " " ++ t

/-- Space-joining a list of turn texts the way repeated `joinStep`s do. -/
def joinSp (l : List String) : String := l.foldl joinStep ""

/-- The turn-reassembly state of `AssemblyAIProvider`. -/
structure TransportState where
  pendingTurns : List (Nat × String)
  nextTurnToDeliver : Nat
  transcriptSoFar : String
deriving Repr, DecidableEq

/-- Initial reassembly state (fields as initialized in the class, and as reset
by `disconnect`). -/
def initState : TransportState :=
  { pendingTurns := [], nextTurnToDeliver := 0, transcriptSoFar := "" }

/-- The `while (pendingTurns.has(nextTurnToDeliver))` loop of `flushTurns`.
The JS loop terminates because each iteration deletes one key from the map;
we pass the map size as fuel.  Returns the new state together with the list
of `(turnOrder, text)` pairs appended to the running transcript, in order. -/
def flushLoop : Nat → TransportState → TransportState × List (Nat × String)
  | 0, st => (st, [])
  | fuel + 1, st =>
    match mapGet st.pendingTurns st.nextTurnToDeliver with
    | none => (st, [])
    | some text =>
      if text = "" then (st, [])
      else
        let st1 : TransportState :=
          { pendingTurns := mapDelete st.pendingTurns st.nextTurnToDeliver
            nextTurnToDeliver := st.nextTurnToDeliver + 1
            transcriptSoFar := joinStep st.transcriptSoFar text }
        let r := flushLoop fuel st1
        (r.1, (st.nextTurnToDeliver, text) :: r.2)

/-- Result of one inbound-message step: the new state, the turns whose text
was appended to the running transcript, and the `transcriptCallback`
invocation (its argument), if any. -/
structure StepResult where
  state : TransportState
  appended : List (Nat × String)
  callback : Option String
deriving Repr, DecidableEq

/-- `flushTurns`: early-return when `nextTurnToDeliver === 0`, otherwise run
the flush loop; invoke the transcript callback iff anything was appended. -/
def flushTurns (st : TransportState) : StepResult :=
  if st.nextTurnToDeliver = 0 then ⟨st, [], none⟩
  else
    let r := flushLoop st.pendingTurns.length st
    ⟨r.1, r.2, if r.2 = [] then none else some r.1.transcriptSoFar⟩

/-- The `msg.type === "Turn"` branch of `socket.onmessage` for a message with
a numeric `turn_order`.  An empty `transcript` is falsy in JS, so both the
turn-numbered branch and the flat-replace branch are skipped and nothing
happens. -/
def handleTurnMessage (st : TransportState) (turnOrder : Nat) (transcript : String) :
    StepResult :=
  if transcript = "" then ⟨st, [], none⟩
  else
    let st1 : TransportState :=
      if st.nextTurnToDeliver = 0 then { st with nextTurnToDeliver := turnOrder } else st
    let st2 : TransportState :=
      { st1 with pendingTurns := mapSet st1.pendingTurns turnOrder transcript }
    flushTurns st2

/-- Deliver a list of turn-numbered messages to the handler in order,
accumulating the appended turns. -/
def runTrace (st : TransportState) : List (Nat × String) → TransportState × List (Nat × String)
  | [] => (st, [])
  | (o, t) :: rest =>
    let r := handleTurnMessage st o t
    let rec' := runTrace r.state rest
    (rec'.1, r.appended ++ rec'.2)

/-! ### Association-list lemmas -/

theorem mapGet_mapSet_self (m : List (Nat × String)) (k : Nat) (v : String) :
    mapGet (mapSet m k v) k = some v := by
  induction m with
  | nil => simp [mapSet, mapGet]
  | cons p rest ih =>
    obtain ⟨j, w⟩ := p
    by_cases hj : j = k <;> simp [mapSet, mapGet, hj, ih]

theorem mapGet_mapSet_ne (m : List (Nat × String)) (k : Nat) (v : String) (k' : Nat)
    (h : k' ≠ k) : mapGet (mapSet m k v) k' = mapGet m k' := by
  induction m with
  | nil => simp [mapSet, mapGet, h, Ne.symm h]
  | cons p rest ih =>
    obtain ⟨j, w⟩ := p
    by_cases hj : j = k
    · subst hj
      simp [mapSet, mapGet, Ne.symm h]
    · by_cases hj' : j = k' <;> simp [mapSet, mapGet, h, hj, hj', ih]

theorem mapGet_eq_none_of_not_mem (m : List (Nat × String)) (k : Nat)
    (h : k ∉ m.map Prod.fst) : mapGet m k = none := by
  induction m with
  | nil => rfl
  | cons p rest ih =>
    obtain ⟨j, w⟩ := p
    simp only [List.map_cons, List.mem_cons] at h
    push_neg at h
    simp [mapGet, Ne.symm h.1, ih h.2]

theorem mapGet_mapDelete_ne (m : List (Nat × String)) (k k' : Nat) (h : k' ≠ k) :
    mapGet (mapDelete m k) k' = mapGet m k' := by
  induction m with
  | nil => rfl
  | cons p rest ih =>
    obtain ⟨j, w⟩ := p
    by_cases hj : j = k
    · subst hj
      simp [mapDelete, mapGet, Ne.symm h]
    · by_cases hj' : j = k' <;> simp [mapDelete, mapGet, h, hj, hj', ih]

theorem mapDelete_sublist_keys (m : List (Nat × String)) (k : Nat) :
    ((mapDelete m k).map Prod.fst).Sublist (m.map Prod.fst) := by
  induction m with
  | nil => simp [mapDelete]
  | cons p rest ih =>
    obtain ⟨j, w⟩ := p
    by_cases hj : j = k
    · simp only [mapDelete, hj, if_pos rfl, List.map_cons]
      exact (List.sublist_cons_self _ _)
    · simpa [mapDelete, hj] using ih.cons₂ j

theorem mapGet_mapDelete_self (m : List (Nat × String)) (k : Nat)
    (hnd : (m.map Prod.fst).Nodup) : mapGet (mapDelete m k) k = none := by
  induction m with
  | nil => rfl
  | cons p rest ih =>
    obtain ⟨j, w⟩ := p
    simp only [List.map_cons, List.nodup_cons] at hnd
    by_cases hj : j = k
    · subst hj
      simp only [mapDelete, if_pos rfl]
      exact mapGet_eq_none_of_not_mem rest j hnd.1
    · simp [mapDelete, mapGet, hj, ih hnd.2]

theorem mapDelete_keys_nodup (m : List (Nat × String)) (k : Nat)
    (hnd : (m.map Prod.fst).Nodup) : ((mapDelete m k).map Prod.fst).Nodup :=
  (mapDelete_sublist_keys m k).nodup hnd

theorem mapSet_keys (m : List (Nat × String)) (k : Nat) (v : String) :
    (mapSet m k v).map Prod.fst =
      if k ∈ m.map Prod.fst then m.map Prod.fst else m.map Prod.fst ++ [k] := by
  induction m with
  | nil => simp [mapSet]
  | cons p rest ih =>
    obtain ⟨j, w⟩ := p
    by_cases hj : j = k
    · subst hj
      simp [mapSet]
    · by_cases hk : k ∈ rest.map Prod.fst <;>
        simp [mapSet, hj, Ne.symm hj, hk, ih]

theorem mapSet_keys_nodup (m : List (Nat × String)) (k : Nat) (v : String)
    (hnd : (m.map Prod.fst).Nodup) : ((mapSet m k v).map Prod.fst).Nodup := by
  rw [mapSet_keys]
  by_cases hk : k ∈ m.map Prod.fst
  · simpa [hk] using hnd
  · simpa [hk] using List.Nodup.append hnd (List.nodup_singleton k)
      (by simpa [List.disjoint_singleton] using hk)

theorem mapDelete_length_of_mem (m : List (Nat × String)) (k : Nat) (v : String)
    (h : mapGet m k = some v) : (mapDelete m k).length + 1 = m.length := by
  induction m with
  | nil => simp [mapGet] at h
  | cons p rest ih =>
    obtain ⟨j, w⟩ := p
    by_cases hj : j = k
    · simp [mapDelete, hj]
    · simp only [mapGet, if_neg hj] at h
      simp [mapDelete, hj, ih h]

theorem mapGet_of_mem_nodup (m : List (Nat × String)) (p : Nat × String)
    (hm : p ∈ m) (hnd : (m.map Prod.fst).Nodup) : mapGet m p.1 = some p.2 := by
  induction m with
  | nil => simp at hm
  | cons q rest ih =>
    obtain ⟨j, w⟩ := q
    simp only [List.map_cons, List.nodup_cons] at hnd
    rcases List.mem_cons.mp hm with h | h
    · subst h
      simp [mapGet]
    · have hj : j ≠ p.1 := by
        intro hEq
        exact hnd.1 (hEq ▸ List.mem_map_of_mem Prod.fst h)
      simp [mapGet, hj, ih h hnd.2]

theorem mapGet_eq_none_iff (m : List (Nat × String)) (k : Nat) :
    mapGet m k = none ↔ k ∉ m.map Prod.fst := by
  induction m with
  | nil => simp [mapGet]
  | cons p rest ih =>
    obtain ⟨j, w⟩ := p
    by_cases hj : j = k
    · subst hj
      simp [mapGet]
    · simp [mapGet, hj, ih, Ne.symm hj]

theorem mapGet_eq_some_iff (m : List (Nat × String)) (k : Nat) (v : String)
    (hnd : (m.map Prod.fst).Nodup) : mapGet m k = some v ↔ (k, v) ∈ m := by
  constructor
  · intro h
    induction m with
    | nil => simp [mapGet] at h
    | cons p rest ih =>
      obtain ⟨j, w⟩ := p
      simp only [List.map_cons, List.nodup_cons] at hnd
      by_cases hj : j = k
      · subst hj
        have hw : w = v := by simpa [mapGet] using h
        simp [hw]
      · simp only [mapGet, if_neg hj] at h
        exact List.mem_cons_of_mem _ (ih hnd.2 h)
  · intro h
    exact mapGet_of_mem_nodup m (k, v) h hnd

/-- Lookup in an association list with `Nodup` keys is invariant under
permutation of the list. -/
theorem mapGet_perm (m m' : List (Nat × String)) (hperm : m.Perm m')
    (hnd : (m.map Prod.fst).Nodup) (k : Nat) : mapGet m k = mapGet m' k := by
  have hnd' : (m'.map Prod.fst).Nodup := ((hperm.map Prod.fst).nodup_iff).mp hnd
  cases hk' : mapGet m' k with
  | none =>
    rw [mapGet_eq_none_iff] at hk' ⊢
    intro hmem
    exact hk' ((hperm.map Prod.fst).subset hmem)
  | some v =>
    rw [mapGet_eq_some_iff m' k v hnd'] at hk'
    exact (mapGet_eq_some_iff m k v hnd).mpr (hperm.symm.subset hk')

/-! ### The flush loop delivers a consecutive block of turn numbers -/

theorem flushLoop_range (fuel : Nat) (st : TransportState) :
    (flushLoop fuel st).1.nextTurnToDeliver =
        st.nextTurnToDeliver + (flushLoop fuel st).2.length ∧
      (flushLoop fuel st).2.map Prod.fst =
        List.range' st.nextTurnToDeliver (flushLoop fuel st).2.length := by
  induction fuel generalizing st with
  | zero => simp [flushLoop]
  | succ fuel ih =>
    simp only [flushLoop]
    cases hget : mapGet st.pendingTurns st.nextTurnToDeliver with
    | none => simp
    | some text =>
      by_cases ht : text = ""
      · simp [ht]
      · simp only [if_neg ht]
        obtain ⟨h1, h2⟩ := ih
          { pendingTurns := mapDelete st.pendingTurns st.nextTurnToDeliver
            nextTurnToDeliver := st.nextTurnToDeliver + 1
            transcriptSoFar := joinStep st.transcriptSoFar text }
        have ha : ({ pendingTurns := mapDelete st.pendingTurns st.nextTurnToDeliver, nextTurnToDeliver := st.nextTurnToDeliver + 1, transcriptSoFar := joinStep st.transcriptSoFar text } : TransportState).nextTurnToDeliver = st.nextTurnToDeliver + 1 := rfl
        rw [ha] at h1
        refine ⟨by simp only [List.length_cons]; omega, ?_⟩
        simp only [List.map_cons, List.length_cons, h2, ha]
        rw [List.range'_succ]

theorem flushTurns_range (st : TransportState) :
    (flushTurns st).appended.map Prod.fst =
        List.range' st.nextTurnToDeliver (flushTurns st).appended.length ∧
      (flushTurns st).state.nextTurnToDeliver =
        st.nextTurnToDeliver + (flushTurns st).appended.length := by
  by_cases h0 : st.nextTurnToDeliver = 0
  · simp [flushTurns, h0]
  · have h := flushLoop_range st.pendingTurns.length st
    simp only [flushTurns, if_neg h0]
    exact ⟨h.2, h.1⟩

/-- For a nonempty text, the one-message handler is the flush of the state
with the turn inserted (and `nextTurnToDeliver` lazily initialized). -/
theorem handleTurnMessage_eq (st : TransportState) (o : Nat) (t : String) (ht : t ≠ "") :
    handleTurnMessage st o t =
      flushTurns
        ⟨mapSet st.pendingTurns o t,
          if st.nextTurnToDeliver = 0 then o else st.nextTurnToDeliver,
          st.transcriptSoFar⟩ := by
  by_cases h0 : st.nextTurnToDeliver = 0 <;> simp [handleTurnMessage, ht, h0]

/-- Every one-message step appends a consecutive block `[s, s + len)` of turn
numbers for some `s` at or above the previous `nextTurnToDeliver`, and leaves
`nextTurnToDeliver` at the end of that block. -/
theorem handleTurnMessage_range (st : TransportState) (o : Nat) (t : String) :
    ∃ s, st.nextTurnToDeliver ≤ s ∧
      (handleTurnMessage st o t).appended.map Prod.fst =
        List.range' s (handleTurnMessage st o t).appended.length ∧
      (handleTurnMessage st o t).state.nextTurnToDeliver =
        s + (handleTurnMessage st o t).appended.length := by
  by_cases ht : t = ""
  · exact ⟨st.nextTurnToDeliver, le_refl _, by simp [handleTurnMessage, ht], by
      simp [handleTurnMessage, ht]⟩
  · rw [handleTurnMessage_eq st o t ht]
    have h := flushTurns_range
      ⟨mapSet st.pendingTurns o t,
        if st.nextTurnToDeliver = 0 then o else st.nextTurnToDeliver,
        st.transcriptSoFar⟩
    refine ⟨if st.nextTurnToDeliver = 0 then o else st.nextTurnToDeliver, ?_, h.1, h.2⟩
    by_cases h0 : st.nextTurnToDeliver = 0 <;> simp [h0]

/-- Along any delivery trace, the turn numbers appended to the running
transcript form a strictly increasing sequence lying between the initial and
final values of `nextTurnToDeliver`. -/
theorem runTrace_appended_sorted (l : List (Nat × String)) (st : TransportState) :
    List.Sorted (· < ·) ((runTrace st l).2.map Prod.fst) ∧
      (∀ k ∈ (runTrace st l).2.map Prod.fst,
        st.nextTurnToDeliver ≤ k ∧ k < (runTrace st l).1.nextTurnToDeliver) ∧
      st.nextTurnToDeliver ≤ (runTrace st l).1.nextTurnToDeliver := by
  induction l generalizing st with
  | nil => simp [runTrace, List.Sorted]
  | cons p rest ih =>
    obtain ⟨o, t⟩ := p
    obtain ⟨s, hs, hmap, hnext⟩ := handleTurnMessage_range st o t
    obtain ⟨ihs, ihm, ihle⟩ := ih (handleTurnMessage st o t).state
    simp only [runTrace, List.map_append]
    have hhead : ∀ k ∈ (handleTurnMessage st o t).appended.map Prod.fst,
        s ≤ k ∧ k < (handleTurnMessage st o t).state.nextTurnToDeliver := by
      intro k hk
      rw [hmap] at hk
      rw [List.mem_range'_1] at hk
      omega
    refine ⟨?_, ?_, ?_⟩
    · refine List.pairwise_append.mpr ⟨?_, ihs, ?_⟩
      · rw [hmap]
        exact List.pairwise_lt_range' _ _
      · intro a ha b hb
        have h1 := hhead a ha
        have h2 := (ihm b hb).1
        omega
    · intro k hk
      rcases List.mem_append.mp hk with hk | hk
      · have := hhead k hk
        omega
      · have := ihm k hk
        omega
    · omega

/-- Claim C8: in any delivery trace of turn-numbered messages — in particular
one containing the same turn twice, whether the duplicate arrives before or
after the turn was flushed — each turn number contributes its text to the
reassembled transcript at most once. -/
theorem turn_delivery_idempotent (trace : List (Nat × String)) (k : Nat) :
    ((runTrace initState trace).2.map Prod.fst).count k ≤ 1 := by
  have hs := (runTrace_appended_sorted trace initState).1
  exact List.nodup_iff_count_le_one.mp hs.nodup k

/-! ### Reordering: invariant carried along a delivery trace

`ts` is the full finite set of turns (as an association list with `Nodup`
keys), `m` the turn-order of the first-delivered turn, and `P` the orders of
the messages processed so far. -/

/-- Invariant holding between the insertion of a turn and the completion of
the flush loop (the flush pointer may still sit on a pending turn). -/
structure MidInv (ts : List (Nat × String)) (m : Nat) (P : List Nat)
    (st : TransportState) : Prop where
  next_ge : m ≤ st.nextTurnToDeliver
  next_pos : 1 ≤ st.nextTurnToDeliver
  seg_done : ∀ j, m ≤ j → j < st.nextTurnToDeliver → j ∈ P
  done_in_ts : ∀ j ∈ P, (mapGet ts j).isSome
  pending_get : ∀ k, mapGet st.pendingTurns k =
    if k ∈ P ∧ st.nextTurnToDeliver ≤ k then mapGet ts k else none
  keys_nodup : (st.pendingTurns.map Prod.fst).Nodup
  transcript_eq : st.transcriptSoFar =
    joinSp ((List.range' m (st.nextTurnToDeliver - m)).map fun j => (mapGet ts j).getD "")

/-- Invariant holding between message deliveries: additionally the flush
pointer is not on an already-processed turn. -/
structure ReorderInv (ts : List (Nat × String)) (m : Nat) (P : List Nat)
    (st : TransportState) extends MidInv ts m P st : Prop where
  next_not_done : st.nextTurnToDeliver ∉ P

theorem flushLoop_inv (ts : List (Nat × String)) (m : Nat) (P : List Nat)
    (hts : ∀ k v, mapGet ts k = some v → v ≠ "") :
    ∀ fuel st, MidInv ts m P st → st.pendingTurns.length ≤ fuel →
      ReorderInv ts m P (flushLoop fuel st).1 := by
  intro fuel
  induction fuel with
  | zero =>
    intro st hInv hlen
    have hpend : st.pendingTurns = [] :=
      List.length_eq_zero.mp (Nat.le_zero.mp hlen)
    refine ⟨hInv, fun hmem => ?_⟩
    have hpg := hInv.pending_get st.nextTurnToDeliver
    rw [hpend, if_pos ⟨hmem, le_refl _⟩] at hpg
    have := hInv.done_in_ts st.nextTurnToDeliver hmem
    rw [← hpg] at this
    simp [mapGet] at this
  | succ fuel ih =>
    intro st hInv hlen
    cases hget : mapGet st.pendingTurns st.nextTurnToDeliver with
    | none =>
      have hgoal : (flushLoop (fuel + 1) st).1 = st := by
        simp [flushLoop, hget]
      rw [hgoal]
      refine ⟨hInv, fun hmem => ?_⟩
      have hpg := hInv.pending_get st.nextTurnToDeliver
      rw [hget, if_pos ⟨hmem, le_refl _⟩] at hpg
      have := hInv.done_in_ts st.nextTurnToDeliver hmem
      rw [← hpg] at this
      simp at this
    | some text =>
      have hpg := hInv.pending_get st.nextTurnToDeliver
      rw [hget] at hpg
      have hmemP : st.nextTurnToDeliver ∈ P := by
        by_contra hmem
        rw [if_neg (fun h => hmem h.1)] at hpg
        exact Option.noConfusion hpg
      rw [if_pos ⟨hmemP, le_refl _⟩] at hpg
      have hts_get : mapGet ts st.nextTurnToDeliver = some text := hpg.symm
      have ht : text ≠ "" := hts _ _ hts_get
      have hgoal : (flushLoop (fuel + 1) st).1 =
          (flushLoop fuel
            { pendingTurns := mapDelete st.pendingTurns st.nextTurnToDeliver
              nextTurnToDeliver := st.nextTurnToDeliver + 1
              transcriptSoFar := joinStep st.transcriptSoFar text }).1 := by
        simp [flushLoop, hget, ht]
      rw [hgoal]
      have hMid : MidInv ts m P
          { pendingTurns := mapDelete st.pendingTurns st.nextTurnToDeliver
            nextTurnToDeliver := st.nextTurnToDeliver + 1
            transcriptSoFar := joinStep st.transcriptSoFar text } := by
        refine ⟨?_, ?_, ?_, hInv.done_in_ts, ?_, ?_, ?_⟩
        · show m ≤ st.nextTurnToDeliver + 1
          have := hInv.next_ge
          omega
        · show 1 ≤ st.nextTurnToDeliver + 1
          omega
        · show ∀ j, m ≤ j → j < st.nextTurnToDeliver + 1 → j ∈ P
          intro j hmj hjlt
          rcases Nat.lt_succ_iff_lt_or_eq.mp hjlt with hjlt | hjeq
          · exact hInv.seg_done j hmj hjlt
          · exact hjeq ▸ hmemP
        · show ∀ k, mapGet (mapDelete st.pendingTurns st.nextTurnToDeliver) k =
            if k ∈ P ∧ st.nextTurnToDeliver + 1 ≤ k then mapGet ts k else none
          intro k
          by_cases hk : k = st.nextTurnToDeliver
          · subst hk
            rw [mapGet_mapDelete_self _ _ hInv.keys_nodup,
              if_neg (fun h => by omega)]
          · rw [mapGet_mapDelete_ne _ _ _ hk, hInv.pending_get k]
            by_cases hkc : k ∈ P ∧ st.nextTurnToDeliver ≤ k
            · rw [if_pos hkc, if_pos ⟨hkc.1, by
                rcases hkc with ⟨_, hle⟩
                omega⟩]
            · rw [if_neg hkc, if_neg (fun h => hkc ⟨h.1, by
                rcases h with ⟨_, hle⟩
                omega⟩)]
        · exact mapDelete_keys_nodup _ _ hInv.keys_nodup
        · have hm : m ≤ st.nextTurnToDeliver := hInv.next_ge
          have hrange : List.range' m (st.nextTurnToDeliver + 1 - m) =
              List.range' m (st.nextTurnToDeliver - m) ++ [st.nextTurnToDeliver] := by
            have hs : st.nextTurnToDeliver + 1 - m = (st.nextTurnToDeliver - m) + 1 := by
              omega
            rw [hs, List.range'_concat]
            congr 2
            omega
          show joinStep st.transcriptSoFar text =
            joinSp ((List.range' m (st.nextTurnToDeliver + 1 - m)).map
              fun j => (mapGet ts j).getD "")
          rw [hrange, List.map_append, hInv.transcript_eq]
          simp only [List.map_cons, List.map_nil, hts_get, Option.getD_some]
          rw [joinSp, joinSp, List.foldl_append]
          rfl
      have hlen' :
          (mapDelete st.pendingTurns st.nextTurnToDeliver).length ≤ fuel := by
        have := mapDelete_length_of_mem _ _ _ hget
        omega
      exact ih _ hMid hlen'

theorem flushTurns_state (st : TransportState) (h0 : st.nextTurnToDeliver ≠ 0) :
    (flushTurns st).state = (flushLoop st.pendingTurns.length st).1 := by
  simp [flushTurns, h0]

theorem handle_step_inv (ts : List (Nat × String)) (m : Nat) (P : List Nat)
    (st : TransportState) (o : Nat) (t : String)
    (hInv : ReorderInv ts m P st)
    (hts : ∀ k v, mapGet ts k = some v → v ≠ "")
    (ho_ts : mapGet ts o = some t) (ho_new : o ∉ P) (hom : m ≤ o) :
    ReorderInv ts m (o :: P) (handleTurnMessage st o t).state := by
  have ht : t ≠ "" := hts o t ho_ts
  have h0 : st.nextTurnToDeliver ≠ 0 := by
    have := hInv.next_pos
    omega
  rw [handleTurnMessage_eq st o t ht, if_neg h0]
  have hnle : st.nextTurnToDeliver ≤ o := by
    by_contra hlt
    exact ho_new (hInv.seg_done o hom (by omega))
  have hMid : MidInv ts m (o :: P)
      ⟨mapSet st.pendingTurns o t, st.nextTurnToDeliver, st.transcriptSoFar⟩ := by
    refine ⟨hInv.next_ge, hInv.next_pos, ?_, ?_, ?_, ?_, hInv.transcript_eq⟩
    · intro j hmj hjlt
      exact List.mem_cons_of_mem _ (hInv.seg_done j hmj hjlt)
    · intro j hj
      rcases List.mem_cons.mp hj with hj | hj
      · subst hj
        simp [ho_ts]
      · exact hInv.done_in_ts j hj
    · show ∀ k, mapGet (mapSet st.pendingTurns o t) k =
        if k ∈ o :: P ∧ st.nextTurnToDeliver ≤ k then mapGet ts k else none
      intro k
      by_cases hk : k = o
      · subst hk
        rw [mapGet_mapSet_self, if_pos ⟨List.mem_cons_self _ _, hnle⟩, ho_ts]
      · rw [mapGet_mapSet_ne _ _ _ _ hk, hInv.pending_get k]
        by_cases hkc : k ∈ P ∧ st.nextTurnToDeliver ≤ k
        · rw [if_pos hkc, if_pos ⟨List.mem_cons_of_mem _ hkc.1, hkc.2⟩]
        · rw [if_neg hkc, if_neg (fun h => hkc
            ⟨(List.mem_cons.mp h.1).resolve_left hk, h.2⟩)]
    · exact mapSet_keys_nodup _ _ _ hInv.keys_nodup
  rw [flushTurns_state
    ⟨mapSet st.pendingTurns o t, st.nextTurnToDeliver, st.transcriptSoFar⟩ h0]
  exact flushLoop_inv ts m (o :: P) hts _ _ hMid (le_refl _)

theorem handle_first_inv (ts : List (Nat × String)) (o0 : Nat) (t0 : String)
    (hts : ∀ k v, mapGet ts k = some v → v ≠ "")
    (h0ts : mapGet ts o0 = some t0) (hpos : 1 ≤ o0) :
    ReorderInv ts o0 [o0] (handleTurnMessage initState o0 t0).state := by
  have ht : t0 ≠ "" := hts _ _ h0ts
  rw [handleTurnMessage_eq _ _ _ ht]
  show ReorderInv ts o0 [o0] (flushTurns ⟨[(o0, t0)], o0, ""⟩).state
  have h0 : o0 ≠ 0 := by omega
  have hMid : MidInv ts o0 [o0] ⟨[(o0, t0)], o0, ""⟩ := by
    refine ⟨le_refl _, hpos, ?_, ?_, ?_, ?_, ?_⟩
    · show ∀ j, o0 ≤ j → j < o0 → j ∈ [o0]
      intro j hmj hjlt
      omega
    · intro j hj
      have hj' : j = o0 := List.mem_singleton.mp hj
      subst hj'
      simp [h0ts]
    · show ∀ k, mapGet [(o0, t0)] k =
        if k ∈ [o0] ∧ o0 ≤ k then mapGet ts k else none
      intro k
      by_cases hk : k = o0
      · subst hk
        simp [mapGet, h0ts]
      · simp [mapGet, hk, Ne.symm hk]
    · simp
    · show ("" : String) =
        joinSp ((List.range' o0 (o0 - o0)).map fun j => (mapGet ts j).getD "")
      simp [joinSp]
  rw [flushTurns_state _ h0]
  exact flushLoop_inv ts o0 [o0] hts _ _ hMid (le_refl _)

theorem ReorderInv_congr (ts : List (Nat × String)) (m : Nat) (P Q : List Nat)
    (st : TransportState) (hPQ : ∀ j, j ∈ P ↔ j ∈ Q)
    (h : ReorderInv ts m P st) : ReorderInv ts m Q st := by
  refine ⟨⟨h.next_ge, h.next_pos,
    fun j a b => (hPQ j).mp (h.seg_done j a b),
    fun j hj => h.done_in_ts j ((hPQ j).mpr hj), ?_,
    h.keys_nodup, h.transcript_eq⟩,
    fun hm => h.next_not_done ((hPQ _).mpr hm)⟩
  intro k
  rw [h.pending_get k]
  by_cases hc : k ∈ P ∧ st.nextTurnToDeliver ≤ k
  · rw [if_pos hc, if_pos ⟨(hPQ k).mp hc.1, hc.2⟩]
  · rw [if_neg hc, if_neg (fun hq => hc ⟨(hPQ k).mpr hq.1, hq.2⟩)]

theorem runTrace_inv (ts : List (Nat × String)) (m : Nat)
    (hts : ∀ k v, mapGet ts k = some v → v ≠ "") :
    ∀ (l : List (Nat × String)) (P : List Nat) (st : TransportState),
      ReorderInv ts m P st →
      (∀ p ∈ l, mapGet ts p.1 = some p.2 ∧ m ≤ p.1) →
      (l.map Prod.fst).Nodup →
      (∀ p ∈ l, p.1 ∉ P) →
      ReorderInv ts m (l.map Prod.fst ++ P) (runTrace st l).1 := by
  intro l
  induction l with
  | nil =>
    intro P st hInv _ _ _
    simpa [runTrace] using hInv
  | cons p rest ih =>
    intro P st hInv hl hnd hfresh
    obtain ⟨o, t⟩ := p
    have hmem : (o, t) ∈ (o, t) :: rest := List.mem_cons_self _ _
    have hstep := handle_step_inv ts m P st o t hInv hts
      (hl (o, t) hmem).1 (hfresh (o, t) hmem) (hl (o, t) hmem).2
    simp only [List.map_cons, List.nodup_cons] at hnd
    have hrest := ih (o :: P) (handleTurnMessage st o t).state hstep
      (fun p hp => hl p (List.mem_cons_of_mem _ hp)) hnd.2
      (fun p hp => by
        intro hPmem
        rcases List.mem_cons.mp hPmem with heq | hPmem
        · exact hnd.1 (heq ▸ List.mem_map_of_mem Prod.fst hp)
        · exact hfresh p (List.mem_cons_of_mem _ hp) hPmem)
    have hstate : (runTrace st ((o, t) :: rest)).1 =
        (runTrace (handleTurnMessage st o t).state rest).1 := rfl
    rw [hstate]
    refine ReorderInv_congr ts m _ _ _ (fun j => ?_) hrest
    simp only [List.map_cons, List.mem_append, List.mem_cons]
    tauto

/-- After delivering a permutation of `ts` whose first message carries the
smallest turn-order `m ≥ 1`, the final transcript is the join of the texts of
the maximal consecutive run of turn-orders starting at `m`. -/
theorem runTrace_transcript_char (ts : List (Nat × String))
    (hkeys : (ts.map Prod.fst).Nodup)
    (hvals : ∀ p ∈ ts, 1 ≤ p.1 ∧ p.2 ≠ "")
    (q : Nat × String) (rest : List (Nat × String))
    (hperm : (q :: rest).Perm ts)
    (hmin : ∀ p ∈ ts, q.1 ≤ p.1) :
    ∃ N, q.1 ≤ N ∧ (∀ j, q.1 ≤ j → j < N → j ∈ ts.map Prod.fst) ∧
      N ∉ ts.map Prod.fst ∧
      (runTrace initState (q :: rest)).1.transcriptSoFar =
        joinSp ((List.range' q.1 (N - q.1)).map fun j => (mapGet ts j).getD "") := by
  have hts : ∀ k v, mapGet ts k = some v → v ≠ "" := by
    intro k v hkv
    exact (hvals (k, v) ((mapGet_eq_some_iff ts k v hkeys).mp hkv)).2
  have hqts : q ∈ ts := hperm.subset (List.mem_cons_self _ _)
  have hlnd : ((q :: rest).map Prod.fst).Nodup :=
    ((hperm.map Prod.fst).nodup_iff).mpr hkeys
  have hfirst := handle_first_inv ts q.1 q.2 hts
    (mapGet_of_mem_nodup ts q hqts hkeys) (hvals q hqts).1
  simp only [List.map_cons, List.nodup_cons] at hlnd
  have hrest := runTrace_inv ts q.1 hts rest [q.1]
    (handleTurnMessage initState q.1 q.2).state hfirst
    (fun p hp => ⟨mapGet_of_mem_nodup ts p
        (hperm.subset (List.mem_cons_of_mem _ hp)) hkeys,
      hmin p (hperm.subset (List.mem_cons_of_mem _ hp))⟩)
    hlnd.2
    (fun p hp hP => hlnd.1
      ((List.mem_singleton.mp hP) ▸ List.mem_map_of_mem Prod.fst hp))
  have hPmem : ∀ j, j ∈ rest.map Prod.fst ++ [q.1] ↔ j ∈ ts.map Prod.fst := by
    intro j
    have hmaps : ((q :: rest).map Prod.fst).Perm (ts.map Prod.fst) :=
      hperm.map Prod.fst
    constructor
    · intro hj
      rcases List.mem_append.mp hj with hj | hj
      · exact hmaps.subset (List.mem_cons_of_mem _ hj)
      · exact hmaps.subset ((List.mem_singleton.mp hj) ▸ List.mem_cons_self _ _)
    · intro hj
      rcases List.mem_cons.mp (hmaps.symm.subset hj) with hj | hj
      · exact List.mem_append.mpr (Or.inr (List.mem_singleton.mpr hj))
      · exact List.mem_append.mpr (Or.inl hj)
  have hfin := ReorderInv_congr ts q.1 _ (ts.map Prod.fst) _ hPmem hrest
  have hstate : (runTrace initState (q :: rest)).1 =
      (runTrace (handleTurnMessage initState q.1 q.2).state rest).1 := rfl
  refine ⟨(runTrace (handleTurnMessage initState q.1 q.2).state rest).1.nextTurnToDeliver,
    hfin.next_ge, hfin.seg_done, hfin.next_not_done, ?_⟩
  rw [hstate]
  exact hfin.transcript_eq

/-- Sorting the turns by turn-order (`strictly increasing delivery order`,
since the orders are distinct). -/
def deliverInOrder (ts : List (Nat × String)) : List (Nat × String) :=
  List.insertionSort (fun a b => a.1 ≤ b.1) ts

/-- Claim C1 (amended): delivering a finite set of distinct-order turns with
nonempty texts and all turn-orders ≥ 1, in any order whose FIRST delivered
turn carries the smallest turn-order, reassembles the same transcript as
delivering them in strictly increasing turn-order.  (The unamended claim —
invariance under arbitrary permutations and tolerance of turn-order 0 — is
refuted by `turn_reorder_counterexample`.) -/
theorem turn_reorder_minfirst (ts l : List (Nat × String))
    (hkeys : (ts.map Prod.fst).Nodup)
    (hvals : ∀ p ∈ ts, 1 ≤ p.1 ∧ p.2 ≠ "")
    (hperm : l.Perm ts)
    (hmin : ∀ q, l.head? = some q → ∀ p ∈ ts, q.1 ≤ p.1) :
    (runTrace initState l).1.transcriptSoFar =
      (runTrace initState (deliverInOrder ts)).1.transcriptSoFar := by
  haveI : IsTotal (Nat × String) (fun a b => a.1 ≤ b.1) :=
    ⟨fun a b => Nat.le_total a.1 b.1⟩
  haveI : IsTrans (Nat × String) (fun a b => a.1 ≤ b.1) :=
    ⟨fun _ _ _ h1 h2 => le_trans h1 h2⟩
  have hsperm : (deliverInOrder ts).Perm ts := List.perm_insertionSort _ ts
  have hsorted : List.Sorted (fun a b : Nat × String => a.1 ≤ b.1) (deliverInOrder ts) :=
    List.sorted_insertionSort (fun a b : Nat × String => a.1 ≤ b.1) ts
  cases l with
  | nil =>
    have hts : ts = [] := hperm.nil_eq.symm
    subst hts
    have : deliverInOrder ([] : List (Nat × String)) = [] := rfl
    rw [this]
  | cons q rest =>
    cases hs : deliverInOrder ts with
    | nil =>
      exfalso
      have : ts.length = 0 := by
        have := hsperm.length_eq
        rw [hs] at this
        simpa using this.symm
      have := hperm.length_eq
      rw [List.length_eq_zero.mp ‹ts.length = 0›] at this
      simp at this
    | cons q' rest' =>
      rw [hs] at hsperm hsorted
      have hq'min : ∀ p ∈ ts, q'.1 ≤ p.1 := by
        intro p hp
        rcases List.mem_cons.mp (hsperm.symm.subset hp) with hp' | hp'
        · exact le_of_eq (congrArg Prod.fst hp'.symm)
        · exact List.rel_of_sorted_cons hsorted p hp'
      have hqmin : ∀ p ∈ ts, q.1 ≤ p.1 := hmin q rfl
      have hq'ts : q' ∈ ts := hsperm.subset (List.mem_cons_self _ _)
      have hqts : q ∈ ts := hperm.subset (List.mem_cons_self _ _)
      have hqq' : q.1 = q'.1 := le_antisymm (hqmin q' hq'ts) (hq'min q hqts)
      obtain ⟨N1, hN1ge, hN1seg, hN1out, hN1tr⟩ :=
        runTrace_transcript_char ts hkeys hvals q rest hperm hqmin
      obtain ⟨N2, hN2ge, hN2seg, hN2out, hN2tr⟩ :=
        runTrace_transcript_char ts hkeys hvals q' rest' hsperm hq'min
      rw [← hqq'] at hN2ge hN2seg hN2tr
      have hNN : N1 = N2 := by
        by_contra hne
        rcases Nat.lt_or_ge N1 N2 with hlt | hge
        · exact hN1out (hN2seg N1 hN1ge hlt)
        · exact hN2out (hN1seg N2 hN2ge (lt_of_le_of_ne hge (Ne.symm hne)))
      rw [hN1tr, hN2tr, hNN]

/-- Witness for `turn_reorder_minfirst` at a concrete two-turn set delivered
min-first by a run that is not itself sorted input. -/
theorem turn_reorder_minfirst_witness :
    (runTrace initState [(1, "a"), (2, "b")]).1.transcriptSoFar =
      (runTrace initState (deliverInOrder [(2, "b"), (1, "a")])).1.transcriptSoFar :=
  turn_reorder_minfirst [(2, "b"), (1, "a")] [(1, "a"), (2, "b")]
    (by decide) (by decide) (by decide)
    (by
      intro q hq
      cases hq
      decide)

/-- Claim C1 as stated is false on the code: the two delivery orders of the
turn set `{(1, "a"), (2, "b")}` are permutations of each other, yet
delivering turn 2 first yields transcript `"b"` while in-order delivery
yields `"a b"` (the first-observed turn, not the smallest, initializes
`nextTurnToDeliver`).  Moreover a numbering starting at 0 silently drops
turn 0's text even when delivered in increasing order. -/
theorem turn_reorder_counterexample :
    List.Perm [(2, "b"), (1, "a")] [(1, "a"), (2, "b")] ∧
      (runTrace initState [(2, "b"), (1, "a")]).1.transcriptSoFar = "b" ∧
      (runTrace initState [(1, "a"), (2, "b")]).1.transcriptSoFar = "a b" ∧
      (runTrace initState [(0, "z"), (1, "a")]).1.transcriptSoFar = "a" := by
  refine ⟨by decide, by decide, by decide, by decide⟩

/-! ### Empty-text turn messages (C10) -/

theorem flushLoop_stall (k : Nat) :
    ∀ (fuel : Nat) (st : TransportState), st.nextTurnToDeliver ≤ k →
      mapGet st.pendingTurns k = none →
      (flushLoop fuel st).1.nextTurnToDeliver ≤ k ∧
        mapGet (flushLoop fuel st).1.pendingTurns k = none := by
  intro fuel
  induction fuel with
  | zero =>
    intro st hle hpend
    exact ⟨hle, hpend⟩
  | succ fuel ih =>
    intro st hle hpend
    cases hget : mapGet st.pendingTurns st.nextTurnToDeliver with
    | none => simpa [flushLoop, hget] using ⟨hle, hpend⟩
    | some text =>
      by_cases ht : text = ""
      · simpa [flushLoop, hget, ht] using ⟨hle, hpend⟩
      · have hk : st.nextTurnToDeliver ≠ k := by
          intro hEq
          rw [hEq, hpend] at hget
          exact Option.noConfusion hget
        have hgoal : (flushLoop (fuel + 1) st).1 =
            (flushLoop fuel
              { pendingTurns := mapDelete st.pendingTurns st.nextTurnToDeliver
                nextTurnToDeliver := st.nextTurnToDeliver + 1
                transcriptSoFar := joinStep st.transcriptSoFar text }).1 := by
          simp [flushLoop, hget, ht]
        rw [hgoal]
        refine ih _ ?_ ?_
        · show st.nextTurnToDeliver + 1 ≤ k
          omega
        · show mapGet (mapDelete st.pendingTurns st.nextTurnToDeliver) k = none
          rw [mapGet_mapDelete_ne _ _ _ (Ne.symm hk)]
          exact hpend

theorem flushTurns_appended (st : TransportState) (h0 : st.nextTurnToDeliver ≠ 0) :
    (flushTurns st).appended = (flushLoop st.pendingTurns.length st).2 := by
  simp [flushTurns, h0]

theorem flushTurns_stall (st : TransportState) (k : Nat)
    (hle : st.nextTurnToDeliver ≤ k) (hpend : mapGet st.pendingTurns k = none) :
    st.nextTurnToDeliver ≤ (flushTurns st).state.nextTurnToDeliver ∧
      (flushTurns st).state.nextTurnToDeliver ≤ k ∧
      mapGet (flushTurns st).state.pendingTurns k = none ∧
      ∀ p ∈ (flushTurns st).appended, p.1 < k := by
  by_cases h0 : st.nextTurnToDeliver = 0
  · refine ⟨?_, ?_, ?_, ?_⟩ <;> simp [flushTurns, h0, hle, hpend]
  · rw [flushTurns_state st h0, flushTurns_appended st h0]
    have hr := flushLoop_range st.pendingTurns.length st
    have hstall := flushLoop_stall k st.pendingTurns.length st hle hpend
    refine ⟨by omega, hstall.1, hstall.2, ?_⟩
    intro p hp
    have hp1 : p.1 ∈ List.range' st.nextTurnToDeliver
        (flushLoop st.pendingTurns.length st).2.length := by
      rw [← hr.2]
      exact List.mem_map_of_mem Prod.fst hp
    rw [List.mem_range'_1] at hp1
    have h1 := hr.1
    have h2 := hstall.1
    omega

theorem handleTurn_stall (st : TransportState) (k o : Nat) (t : String)
    (h0 : 0 < st.nextTurnToDeliver) (hle : st.nextTurnToDeliver ≤ k)
    (hpend : mapGet st.pendingTurns k = none)
    (hok : o = k → t = "") :
    0 < (handleTurnMessage st o t).state.nextTurnToDeliver ∧
      (handleTurnMessage st o t).state.nextTurnToDeliver ≤ k ∧
      mapGet (handleTurnMessage st o t).state.pendingTurns k = none ∧
      ∀ p ∈ (handleTurnMessage st o t).appended, p.1 < k := by
  by_cases ht : t = ""
  · subst ht
    simp only [handleTurnMessage, if_pos rfl]
    exact ⟨h0, hle, hpend, by simp⟩
  · have hok' : o ≠ k := fun hEq => ht (hok hEq)
    have h0' : st.nextTurnToDeliver ≠ 0 := by omega
    rw [handleTurnMessage_eq st o t ht, if_neg h0']
    have hfl := flushTurns_stall
      ⟨mapSet st.pendingTurns o t, st.nextTurnToDeliver, st.transcriptSoFar⟩ k hle
      (by
        show mapGet (mapSet st.pendingTurns o t) k = none
        rw [mapGet_mapSet_ne _ _ _ _ (Ne.symm hok')]
        exact hpend)
    refine ⟨?_, hfl.2.1, hfl.2.2.1, hfl.2.2.2⟩
    have h1 := hfl.1
    have hb : (⟨mapSet st.pendingTurns o t, st.nextTurnToDeliver,
        st.transcriptSoFar⟩ : TransportState).nextTurnToDeliver =
        st.nextTurnToDeliver := rfl
    rw [hb] at h1
    omega

/-- Claim C10 (amended): the first half of the claim is exact — an inbound
`Turn` message with empty transcript text leaves `pendingTurns`,
`nextTurnToDeliver` and the running transcript unchanged and invokes no
transcript callback.  The withholding consequent holds only once
`nextTurnToDeliver` has been lazily initialized to a positive value at most
`k` (and turn `k` never arrives with nonempty text): from such a state no
turn of order greater than `k` is ever appended.  If the empty-text turn
arrives before initialization it is simply ignored and later turns are still
delivered (`empty_turn_counterexample`). -/
theorem empty_turn_amended :
    (∀ (st : TransportState) (k : Nat), handleTurnMessage st k "" = ⟨st, [], none⟩) ∧
      ∀ (trace : List (Nat × String)) (st : TransportState) (k : Nat),
        0 < st.nextTurnToDeliver → st.nextTurnToDeliver ≤ k →
        mapGet st.pendingTurns k = none →
        (∀ p ∈ trace, p.1 = k → p.2 = "") →
        ∀ p ∈ (runTrace st trace).2, p.1 < k := by
  refine ⟨fun st k => by simp [handleTurnMessage], ?_⟩
  intro trace
  induction trace with
  | nil =>
    intro st k _ _ _ _ p hp
    simp [runTrace] at hp
  | cons q rest ih =>
    intro st k h0 hle hpend hempty p hp
    obtain ⟨o, t⟩ := q
    have hstep := handleTurn_stall st k o t h0 hle hpend
      (fun hEq => hempty (o, t) (List.mem_cons_self _ _) hEq)
    have hsplit : (runTrace st ((o, t) :: rest)).2 =
        (handleTurnMessage st o t).appended ++
          (runTrace (handleTurnMessage st o t).state rest).2 := rfl
    rw [hsplit] at hp
    rcases List.mem_append.mp hp with hp | hp
    · exact hstep.2.2.2 p hp
    · exact ih (handleTurnMessage st o t).state k hstep.1 hstep.2.1 hstep.2.2.1
        (fun p hp' => hempty p (List.mem_cons_of_mem _ hp')) p hp

/-- Witness for `empty_turn_amended`: from the initialized state
`nextTurnToDeliver = 1`, a trace whose only turn-3 messages are empty keeps
every appended turn below 3. -/
theorem empty_turn_amended_witness : ((1 : Nat), "a").1 < 3 :=
  empty_turn_amended.2 [(1, "a")] ⟨[], 1, ""⟩ 3 (by decide) (by decide)
    (by decide) (by decide) (1, "a") (by decide)

/-- Claim C10 as stated is false on the code in its withholding consequent:
the handler does ignore an empty-text turn (first conjunct), but after the
remote emits an empty-text turn at order `k = 1` as the very first message,
the later turn 2 (> k) is still appended to the running transcript rather
than being withheld, because the empty turn never initialized
`nextTurnToDeliver`. -/
theorem empty_turn_counterexample :
    handleTurnMessage initState 1 "" = ⟨initState, [], none⟩ ∧
      (2, "x") ∈ (runTrace initState [(1, ""), (2, "x")]).2 ∧ (1 : Nat) < 2 :=
  ⟨by decide, by decide, by decide⟩

/-! ## Connection lifecycle (AssemblyAIProvider.connect / onclose / timeout) -/

/-- The provider's `status` field: `"idle" | "connecting" | "connected" | "error"`. -/
inductive ConnStatus where
  | idle
  | connecting
  | connected
  | error
deriving Repr, DecidableEq

/-- Outcome of a connection-lifecycle event handler with respect to the
promise returned by `connect`. -/
inductive ConnectOutcome where
  | nothing
  | resolve
  | reject (msg : String)
deriving Repr, DecidableEq

/-- Lowercasing as in JS `String.prototype.toLowerCase` (ASCII letters). -/
def strLower (s : String) : String := String.mk (s.data.map Char.toLower)

/-- Substring containment, JS `String.prototype.includes`. -/
def containsSub : List Char → List Char → Bool
  | hay, needle =>
    if needle.isPrefixOf hay then true
    else
      match hay with
      | [] => false
      | _ :: t => containsSub t needle

/-- JS `reason.includes(sub)` on strings. -/
def strIncludes (s sub : String) : Bool := containsSub s.data sub.data

/-- The authorization-denied test of `socket.onclose`:
`event.code === 4001 || event.reason?.toLowerCase().includes("not authorized")
 || event.reason?.toLowerCase().includes("unauthorized")`. -/
def isAuthClose (code : Nat) (reason : String) : Bool :=
  code = 4001 || strIncludes (strLower reason) "not authorized" ||
    strIncludes (strLower reason) "unauthorized"

/-- The authentication-failure rejection message. -/
def authFailureMsg : String :=
  "Authentication failed. Please verify your AssemblyAI API key is correct. Note: You may need a backend endpoint to generate temporary tokens for browser use."

/-- The generic connection-failure rejection message:
`Connection failed: ${event.reason || code ...}`. -/
def connFailedMsg (code : Nat) (reason : String) : String :=
  "Connection failed: " ++ (if reason = "" then "code " ++ toString code else reason)

/-- The `socket.onclose` handler, as a function of the provider status, the
`resolved` flag, and the close event; returns the new status, the new
`resolved` flag, and the promise outcome. -/
def handleClose (status : ConnStatus) (resolved : Bool) (code : Nat)
    (reason : String) : ConnStatus × Bool × ConnectOutcome :=
  if isAuthClose code reason then
    if resolved then (.error, true, .nothing)
    else (.error, true, .reject authFailureMsg)
  else if status = .connected then (.error, resolved, .nothing)
  else if status = .connecting ∧ resolved = false then
    (.error, true, .reject (connFailedMsg code reason))
  else if status ≠ .connecting then (.idle, resolved, .nothing)
  else (status, resolved, .nothing)

/-- The `connectionTimeout` handler installed by `connect` (fires after
`connectionTimeoutMs`): `if (!resolved && status === "connecting") { resolved
= true; reject(new Error("Connection timeout")) }` — note it does NOT write
`status`. -/
def handleConnectionTimeout (status : ConnStatus) (resolved : Bool) :
    ConnStatus × Bool × ConnectOutcome :=
  if resolved = false ∧ status = .connecting then
    (status, true, .reject "Connection timeout")
  else (status, resolved, .nothing)

/-- The handshake timeout duration passed to `setTimeout` (milliseconds). -/
def connectionTimeoutMs : Nat := 10000

/-- JS `WebSocket.readyState`. -/
inductive ReadyState where
  | CONNECTING
  | OPEN
  | CLOSING
  | CLOSED
deriving Repr, DecidableEq

/-- What the synchronous prelude of `connect` does before any awaiting. -/
inductive ConnectAction where
  /-- Early return: the existing open connection is kept and reused. -/
  | reuseExisting
  /-- A brand-new socket is opened; the flag records whether an existing
  socket (of any ready-state) was closed first. -/
  | startNew (closedPrevious : Bool)
deriving Repr, DecidableEq

/-- The synchronous prelude of `connect`: early-return iff a socket exists,
is `OPEN`, and status is `connected`; otherwise close any existing socket and
start a fresh connection attempt with status `connecting`. -/
def connectPrelude (ws : Option ReadyState) (status : ConnStatus) :
    ConnectAction × ConnStatus :=
  match ws with
  | some rs =>
    if rs = .OPEN ∧ status = .connected then (.reuseExisting, status)
    else (.startNew true, .connecting)
  | none => (.startNew false, .connecting)

theorem connFailedMsg_ne_authFailureMsg (code : Nat) (reason : String) :
    connFailedMsg code reason ≠ authFailureMsg := by
  intro h
  have h1 : (connFailedMsg code reason).data.head? = some 'C' := by
    rw [connFailedMsg, String.data_append]
    rfl
  rw [h] at h1
  have h2 : authFailureMsg.data.head? = some 'A' := rfl
  rw [h1] at h2
  simp at h2

/-- Claim C5 (confirmed): when the socket closes during connection
establishment (status `Connecting`, promise unresolved), `connect` fails with
the authentication-failure error exactly when the close event carries an
authorization-denied indicator (close code 4001, or a reason whose lowercase
form contains "not authorized" or "unauthorized"); any other closure in that
situation rejects with the generic connection-failure error.  In both cases
the status transitions to `Error`. -/
theorem close_error_classification (code : Nat) (reason : String) :
    ((handleClose .connecting false code reason).2.2 = .reject authFailureMsg ↔
      isAuthClose code reason = true) ∧
      (isAuthClose code reason = false →
        (handleClose .connecting false code reason).2.2 =
          .reject (connFailedMsg code reason)) ∧
      (handleClose .connecting false code reason).1 = .error := by
  by_cases hauth : isAuthClose code reason = true
  · simp [handleClose, hauth]
  · rw [Bool.not_eq_true] at hauth
    have hout : handleClose .connecting false code reason =
        (.error, true, .reject (connFailedMsg code reason)) := by
      simp [handleClose, hauth]
    rw [hout]
    refine ⟨⟨fun h => ?_, fun h => by rw [h] at hauth; exact Bool.noConfusion hauth⟩,
      fun _ => rfl, rfl⟩
    exact absurd (ConnectOutcome.reject.inj h)
      (connFailedMsg_ne_authFailureMsg code reason)

/-- Witness for `close_error_classification`: close code 4001 yields the
authentication error; a non-auth abnormal close (1006, "gone") yields the
generic failure. -/
theorem close_error_classification_witness :
    (handleClose .connecting false 4001 "").2.2 = .reject authFailureMsg ∧
      (handleClose .connecting false 1006 "gone").2.2 =
        .reject (connFailedMsg 1006 "gone") :=
  ⟨(close_error_classification 4001 "").1.mpr (by decide),
    (close_error_classification 1006 "gone").2.1 (by decide)⟩

/-- Claim C4 as stated is false on the code: the connection-timeout handler
fires in state (`Connecting`, unresolved), rejects the promise with
"Connection timeout", but leaves the status at `Connecting` — it never
transitions to `Error`. -/
theorem connection_timeout_counterexample :
    handleConnectionTimeout .connecting false =
        (.connecting, true, .reject "Connection timeout") ∧
      ConnStatus.connecting ≠ ConnStatus.error :=
  ⟨by decide, by decide⟩

/-- Claim C4 (amended): if `connect` has not completed its handshake when the
10-second timer (`connectionTimeoutMs = 10000`) fires while still
`Connecting`, the returned promise is rejected with the connection-timeout
error, but the connection state REMAINS `Connecting` (the handler does not
set `status = "error"`). -/
theorem connection_timeout_rejects (status : ConnStatus) (resolved : Bool)
    (hs : status = .connecting) (hr : resolved = false) :
    (handleConnectionTimeout status resolved).2.2 = .reject "Connection timeout" ∧
      (handleConnectionTimeout status resolved).1 = .connecting ∧
      connectionTimeoutMs = 10000 := by
  subst hs
  subst hr
  exact ⟨rfl, rfl, rfl⟩

/-- Witness for `connection_timeout_rejects`. -/
theorem connection_timeout_rejects_witness :
    (handleConnectionTimeout .connecting false).2.2 = .reject "Connection timeout" ∧
      (handleConnectionTimeout .connecting false).1 = .connecting ∧
      connectionTimeoutMs = 10000 :=
  connection_timeout_rejects .connecting false rfl rfl

/-- Claim C6 as stated is false on the code: calling `connect` while a
connection attempt is in flight (status `Connecting`, socket in
`CONNECTING` ready-state) does not wait on the running attempt — the
prelude closes the existing socket and opens a second one. -/
theorem connect_while_connecting_counterexample :
    connectPrelude (some .CONNECTING) .connecting = (.startNew true, .connecting) ∧
      ConnectAction.startNew true ≠ .reuseExisting :=
  ⟨by decide, by decide⟩

/-- Claim C6 (amended): calling `connect` while `Connected` with an open
socket is a no-op that keeps the existing connection; but calling while
`Connecting` does not wait on the already-running attempt — whatever the
in-flight socket's ready-state, it is closed and a new socket is opened. -/
theorem connect_reentrancy (rs : ReadyState) :
    connectPrelude (some .OPEN) .connected = (.reuseExisting, .connected) ∧
      connectPrelude (some rs) .connecting = (.startNew true, .connecting) := by
  refine ⟨by decide, ?_⟩
  cases rs <;> decide

/-! ## PCM16 audio encoding (AudioWorklet processor and ScriptProcessorNode
fallback paths) -/

/-- `MAX_16BIT_INT` of the inline AudioWorklet processor source. -/
def MAX_16BIT_INT : Int := 32767

/-- Truncation toward zero (the integer-conversion step of JS `ToInt16` /
`DataView.setInt16` on a finite number). -/
def truncRat (q : ℚ) : Int := if 0 ≤ q then ⌊q⌋ else -⌊-q⌋

/-- Wrap an integer into the int16 range `[-32768, 32767]` modulo `2^16`
(JS `ToInt16`). -/
def toInt16 (z : Int) : Int := (z + 32768) % 65536 - 32768

/-- The AudioWorklet path: `Int16Array.from(float32Array.map((n) => n *
MAX_16BIT_INT))` — every sample (negative or not) is multiplied by 32767,
with no clamping, then converted to int16 with truncation and wrap. -/
def encodeWorkletSample (s : ℚ) : Int :=
  toInt16 (truncRat (s * (MAX_16BIT_INT : ℚ)))

/-- The clamp of the ScriptProcessorNode fallback:
`Math.max(-1, Math.min(1, sample))`. -/
def clampSample (s : ℚ) : ℚ := max (-1) (min 1 s)

/-- The ScriptProcessorNode fallback path: clamp to [-1, 1], then
`sample < 0 ? sample * 0x8000 : sample * 0x7fff`, stored via
`setInt16(..., true)` (little-endian). -/
def encodeFallbackSample (s : ℚ) : Int :=
  toInt16 (truncRat
    (if clampSample s < 0 then clampSample s * 32768 else clampSample s * 32767))

/-- Little-endian byte pair of an int16 value. -/
def int16BytesLE (v : Int) : Nat × Nat :=
  ((v % 65536).toNat % 256, (v % 65536).toNat / 256)

/-- Little-endian bytes emitted by the fallback path for one sample. -/
def encodeFallbackBytes (s : ℚ) : Nat × Nat := int16BytesLE (encodeFallbackSample s)

/-- Claim C3 as stated is false on the code: on the AudioWorklet audio path
the sample is NOT clamped and negative samples are multiplied by 32767, not
32768 — so `-1.0` encodes to `-32767` (the claim requires `-32768`), and an
out-of-range sample such as `2.0` wraps around to `-2` instead of saturating. -/
theorem pcm_encode_counterexample :
    encodeWorkletSample (-1) = -32767 ∧ (-32767 : Int) ≠ -32768 ∧
      encodeWorkletSample 2 = -2 := by
  refine ⟨?_, by decide, ?_⟩ <;>
    norm_num [encodeWorkletSample, truncRat, toInt16, MAX_16BIT_INT]

/-- Claim C3 (amended): only the ScriptProcessorNode fallback path clamps to
[-1, 1] and scales asymmetrically (negative × 32768, non-negative × 32767,
little-endian output), so on that path `[1.0, -1.0, 0.0]` encode to
`32767, -32768, 0` (LE bytes `FF 7F`, `00 80`, `00 00`) and all out-of-range
inputs saturate; the AudioWorklet path instead multiplies every sample by
32767 with no clamping, giving `32767, -32767, 0` for the same inputs. -/
theorem pcm_encode_amended :
    (([1, -1, 0] : List ℚ).map encodeFallbackSample = [32767, -32768, 0]) ∧
      (([1, -1, 0] : List ℚ).map encodeFallbackBytes =
        [(0xFF, 0x7F), (0x00, 0x80), (0x00, 0x00)]) ∧
      (([1, -1, 0] : List ℚ).map encodeWorkletSample = [32767, -32767, 0]) ∧
      (∀ s : ℚ, 1 ≤ s → encodeFallbackSample s = 32767) ∧
      (∀ s : ℚ, s ≤ -1 → encodeFallbackSample s = -32768) := by
  refine ⟨?_, ?_, ?_, ?_, ?_⟩
  · norm_num [encodeFallbackSample, clampSample, truncRat, toInt16]
  · norm_num [encodeFallbackBytes, int16BytesLE, encodeFallbackSample,
      clampSample, truncRat, toInt16]
    decide
  · norm_num [encodeWorkletSample, truncRat, toInt16, MAX_16BIT_INT]
  · intro s hs
    have hc : clampSample s = 1 := by
      rw [clampSample, min_eq_left hs]
      exact max_eq_right (by norm_num)
    rw [encodeFallbackSample, hc]
    norm_num [truncRat, toInt16]
  · intro s hs
    have hc : clampSample s = -1 := by
      have hmin : min 1 s = s := min_eq_right (by linarith)
      rw [clampSample, hmin]
      exact max_eq_left hs
    rw [encodeFallbackSample, hc]
    norm_num [truncRat, toInt16]

/-- Witness for `pcm_encode_amended`: out-of-range fallback samples saturate
at the int16 bounds. -/
theorem pcm_encode_amended_witness :
    encodeFallbackSample 2 = 32767 ∧ encodeFallbackSample (-(3 / 2)) = -32768 :=
  ⟨pcm_encode_amended.2.2.2.1 2 (by norm_num),
    pcm_encode_amended.2.2.2.2 (-(3 / 2)) (by norm_num)⟩

/-! ## ScriptMatcher (useScriptMatcher.ts)

JS floating-point score arithmetic is modelled exactly over `ℚ` (all the
operations involved — `+ - * / min max abs` and comparisons — are exact on
the magnitudes that occur here). -/

/-- JS regex `\s` membership for the characters arising in practice. -/
def isWs (c : Char) : Bool := c = ' ' || c = '\t' || c = '\n' || c = '\r'

/-- `normalizeWord`: `word.toLowerCase().replace(/[^a-z0-9]/g, "")`. -/
def normalizeWord (w : String) : String :=
  String.mk ((w.data.map Char.toLower).filter
    fun c => ('a' ≤ c && c ≤ 'z') || ('0' ≤ c && c ≤ '9'))

/-- A tokenized script word with position information. -/
structure ScriptWord where
  word : String
  normalizedWord : String
  index : Nat
  startChar : Nat
  endChar : Nat
deriving Repr, DecidableEq

/-- The `/\S+/g` matching loop of `tokenizeScript`.  The JS loop advances
through the string; we pass the remaining character count as fuel (the list
shrinks by at least one character per step, so `chars.length` fuel is
enough). -/
def tokenizeGo : Nat → List Char → Nat → Nat → List ScriptWord
  | 0, _, _, _ => []
  | fuel + 1, chars, pos, idx =>
    match chars with
    | [] => []
    | c :: rest =>
      if isWs c then tokenizeGo fuel rest (pos + 1) idx
      else
        let w := c :: rest.takeWhile (fun ch => !isWs ch)
        let rest1 := rest.dropWhile (fun ch => !isWs ch)
        { word := String.mk w
          normalizedWord := normalizeWord (String.mk w)
          index := idx
          startChar := pos
          endChar := pos + w.length } :: tokenizeGo fuel rest1 (pos + w.length) (idx + 1)

/-- `tokenizeScript`: tokenize into words with position information. -/
def tokenizeScript (script : String) : List ScriptWord :=
  tokenizeGo script.data.length script.data 0 0

/-- The Levenshtein recurrence computed by the DP matrix of
`levenshteinDistance` (substitution / insertion / deletion, each +1; equal
characters carry the diagonal).  Fuel bounds the recursion depth; the sum of
the lengths is enough. -/
def levRec : Nat → List Char → List Char → Nat
  | _, [], b => b.length
  | _, a, [] => a.length
  | 0, _, _ => 0
  | fuel + 1, x :: a, y :: b =>
    if x = y then levRec fuel a b
    else
      min (levRec fuel a b + 1)
        (min (levRec fuel (x :: a) b + 1) (levRec fuel a (y :: b) + 1))

/-- `levenshteinDistance` between two strings (as character lists). -/
def levenshteinDistance (a b : List Char) : Nat :=
  levRec (a.length + b.length) a b

/-- `similarity`: 1 for equal strings, 0 if either is empty, else
`1 - distance / maxLength`. -/
def similarity (a b : String) : ℚ :=
  if a = b then 1
  else if a.length = 0 ∨ b.length = 0 then 0
  else 1 - (levenshteinDistance a.data b.data : ℚ) / ((max a.length b.length : Nat) : ℚ)

/-- `matchScore`: average of the per-position similarities over the common
length of the two word sequences. -/
def matchScore (transcriptWords : List String) (scriptWords : List ScriptWord) : ℚ :=
  if transcriptWords = [] ∨ scriptWords = [] then 0
  else
    ((transcriptWords.zip scriptWords).map
        fun p => similarity p.1 p.2.normalizedWord).sum /
      ((min transcriptWords.length scriptWords.length : Nat) : ℚ)

/-- Matcher configuration constants. -/
def SEARCH_WINDOW_SIZE : Nat := 30

/-- `MATCH_THRESHOLD = 0.6`. -/
def MATCH_THRESHOLD : ℚ := 6 / 10

/-- `NGRAM_SIZE = 3`. -/
def NGRAM_SIZE : Nat := 3

/-- `MIN_WORDS_FOR_MATCH = 2`. -/
def MIN_WORDS_FOR_MATCH : Nat := 2

/-- `THROTTLE_MS = 100`. -/
def THROTTLE_MS : Nat := 100

/-- The matcher's `MatchState`. -/
structure MatchState where
  currentWordIndex : Nat
  confidence : ℚ
  lastMatchTime : Nat
  isActive : Bool
deriving Repr, DecidableEq

/-- `scriptWords.slice(i, i + len)`. -/
def candidateWindow (scriptWords : List ScriptWord) (i len : Nat) : List ScriptWord :=
  (scriptWords.drop i).take len

/-- The proximity bonus
`1 - Math.abs(i - currentIndex) / SEARCH_WINDOW_SIZE * 0.1`. -/
def distanceBonus (currentIndex i : Nat) : ℚ :=
  1 - |(i : ℚ) - (currentIndex : ℚ)| / (SEARCH_WINDOW_SIZE : ℚ) * (1 / 10)

/-- `adjustedScore = score * distanceBonus` for the candidate window starting
at script index `i`. -/
def adjustedScoreAt (scriptWords : List ScriptWord) (recentWords : List String)
    (currentIndex i : Nat) : ℚ :=
  matchScore recentWords (candidateWindow scriptWords i recentWords.length) *
    distanceBonus currentIndex i

/-- The best-match search loop: fold over the candidate start indices,
keeping `(index, score)` and replacing it exactly when the adjusted score
strictly exceeds the best score so far (initial best is `(-1, 0)`). -/
def bestMatch (scriptWords : List ScriptWord) (recentWords : List String)
    (currentIndex : Nat) (candidates : List Nat) : Int × ℚ :=
  candidates.foldl
    (fun best i =>
      if adjustedScoreAt scriptWords recentWords currentIndex i > best.2 then
        ((i : Int), adjustedScoreAt scriptWords recentWords currentIndex i)
      else best)
    (-1, 0)

/-- The `setMatchState` updater body of `processTranscript` (search window,
best-match scan, threshold and bounded-backtrack guards, commit). -/
def matcherUpdate (scriptWords : List ScriptWord) (prev : MatchState)
    (recentWords : List String) (now : Nat) : MatchState :=
  let currentIndex := prev.currentWordIndex
  let searchStart : Nat := currentIndex - 2
  let searchEnd : Int :=
    min ((scriptWords.length : Int) - recentWords.length + 1)
      ((currentIndex : Int) + (SEARCH_WINDOW_SIZE : Int))
  if (searchStart : Int) ≥ searchEnd then prev
  else
    let candidates := List.range' searchStart (searchEnd.toNat - searchStart)
    let best := bestMatch scriptWords recentWords currentIndex candidates
    if best.2 ≥ MATCH_THRESHOLD ∧ best.1 ≥ 0 then
      let newIndex : Int := best.1 + (recentWords.length : Int) - 1
      if newIndex ≥ (currentIndex : Int) - 1 then
        { currentWordIndex := newIndex.toNat
          confidence := best.2
          lastMatchTime := now
          isActive := true }
      else prev
    else prev

/-- Backward whitespace skip of `extractLastNWords`
(`while (end > 0 && /\s/.test(text[end - 1])) end--`). -/
def skipWsBack (chars : List Char) : Nat → Nat
  | 0 => 0
  | e + 1 => if isWs (chars.getD e ' ') then skipWsBack chars e else e + 1

/-- Backward word-start search of `extractLastNWords`
(`while (start > 0 && !/\s/.test(text[start - 1])) start--`). -/
def findWordStart (chars : List Char) : Nat → Nat
  | 0 => 0
  | s + 1 => if !isWs (chars.getD s ' ') then findWordStart chars s else s + 1

/-- The backward scanning loop of `extractLastNWords`; `e` is the current
`end` cursor.  The cursor strictly decreases on every iteration, so `e`
itself is enough fuel. -/
def extractGo (chars : List Char) (n : Nat) : Nat → Nat → List String → List String
  | 0, _, words => words
  | fuel + 1, e, words =>
    if words.length < n ∧ 0 < e then
      let e1 := skipWsBack chars e
      if e1 = 0 then words
      else
        let s0 := findWordStart chars e1
        let word := String.mk ((chars.drop s0).take (e1 - s0))
        let norm := normalizeWord word
        extractGo chars n fuel s0 (if 0 < norm.length then norm :: words else words)
    else words

/-- `extractLastNWords`: extract the last `n` normalized words from the tail
of `text` without tokenizing the whole string. -/
def extractLastNWords (text : String) (n : Nat) : List String :=
  extractGo text.data n text.data.length text.data.length []

/-- The matcher's ref cells surrounding `matchState`
(`lastTranscriptRef`, `lastMatchTimeRef`). -/
structure MatcherRefs where
  matchState : MatchState
  lastTranscript : String
  lastMatchTime : Nat
deriving Repr, DecidableEq

/-- `processTranscript(transcript)`: the early-return guards (empty input /
empty script, unchanged transcript, 100 ms throttle, minimum growth of 3
characters), then ref updates, last-3-words extraction, minimum word count,
and the `setMatchState` update.  `now` stands for `Date.now()`. -/
def processTranscript (scriptWords : List ScriptWord) (rs : MatcherRefs)
    (now : Nat) (transcript : String) : MatcherRefs :=
  if transcript = "" ∨ scriptWords = [] then rs
  else if transcript = rs.lastTranscript then rs
  else if now - rs.lastMatchTime < THROTTLE_MS then rs
  else
    let lengthDiff : Int := (transcript.length : Int) - (rs.lastTranscript.length : Int)
    if 0 < lengthDiff ∧ lengthDiff < 3 then rs
    else
      let rs1 : MatcherRefs :=
        { rs with lastTranscript := transcript, lastMatchTime := now }
      let recentWords := extractLastNWords transcript NGRAM_SIZE
      if recentWords.length < MIN_WORDS_FOR_MATCH then rs1
      else { rs1 with matchState := matcherUpdate scriptWords rs.matchState recentWords now }

/-- The state installed by `setScript` (and `reset`): position 0, zero
confidence, inactive, cleared refs. -/
def setScriptRefs : MatcherRefs :=
  { matchState :=
      { currentWordIndex := 0, confidence := 0, lastMatchTime := 0, isActive := false }
    lastTranscript := ""
    lastMatchTime := 0 }

/-- A sequence of `processTranscript` calls, each with its `Date.now()` value
and transcript. -/
def runMatcher (scriptWords : List ScriptWord) :
    MatcherRefs → List (Nat × String) → MatcherRefs
  | rs, [] => rs
  | rs, (now, t) :: rest => runMatcher scriptWords (processTranscript scriptWords rs now t) rest

/-! ### Case analysis of the matcher update -/

theorem foldl_best_acc (g : Nat → ℚ) :
    ∀ (cands : List Nat) (acc : Int × ℚ),
      cands.foldl (fun best i => if g i > best.2 then ((i : Int), g i) else best) acc =
          acc ∨
        ∃ i ∈ cands,
          cands.foldl (fun best i => if g i > best.2 then ((i : Int), g i) else best) acc =
            ((i : Int), g i) := by
  intro cands
  induction cands with
  | nil =>
    intro acc
    left
    rfl
  | cons c cs ih =>
    intro acc
    rw [List.foldl_cons]
    rcases ih (if g c > acc.2 then ((c : Int), g c) else acc) with h | ⟨i, hi, h⟩
    · rw [h]
      by_cases hc : g c > acc.2
      · right
        exact ⟨c, List.mem_cons_self _ _, by rw [if_pos hc]⟩
      · left
        rw [if_neg hc]
    · right
      exact ⟨i, List.mem_cons_of_mem _ hi, h⟩

theorem bestMatch_cases (scriptWords : List ScriptWord) (recentWords : List String)
    (currentIndex : Nat) (cands : List Nat) :
    bestMatch scriptWords recentWords currentIndex cands = (-1, 0) ∨
      ∃ i ∈ cands, bestMatch scriptWords recentWords currentIndex cands =
        ((i : Int), adjustedScoreAt scriptWords recentWords currentIndex i) :=
  foldl_best_acc (adjustedScoreAt scriptWords recentWords currentIndex) cands (-1, 0)

/-- Every call of the matcher update either leaves the state unchanged or
commits: the committed candidate `i` lies inside the search window, its
adjusted score meets the threshold, the new index respects the
bounded-backtrack guard, and the new state stores exactly
(`newIndex`, adjusted score, `now`, active). -/
theorem matcherUpdate_cases (scriptWords : List ScriptWord) (prev : MatchState)
    (recentWords : List String) (now : Nat) :
    matcherUpdate scriptWords prev recentWords now = prev ∨
      ∃ i : Nat,
        (i : Int) < min ((scriptWords.length : Int) - (recentWords.length : Int) + 1)
          ((prev.currentWordIndex : Int) + (SEARCH_WINDOW_SIZE : Int)) ∧
        adjustedScoreAt scriptWords recentWords prev.currentWordIndex i ≥
          MATCH_THRESHOLD ∧
        (i : Int) + (recentWords.length : Int) - 1 ≥ (prev.currentWordIndex : Int) - 1 ∧
        matcherUpdate scriptWords prev recentWords now =
          { currentWordIndex := ((i : Int) + (recentWords.length : Int) - 1).toNat
            confidence := adjustedScoreAt scriptWords recentWords prev.currentWordIndex i
            lastMatchTime := now
            isActive := true } := by
  simp only [matcherUpdate]
  by_cases hse : ((prev.currentWordIndex - 2 : Nat) : Int) ≥
      min ((scriptWords.length : Int) - (recentWords.length : Int) + 1)
        ((prev.currentWordIndex : Int) + (SEARCH_WINDOW_SIZE : Int))
  · rw [if_pos hse]
    left
    rfl
  · rw [if_neg hse]
    rcases bestMatch_cases scriptWords recentWords prev.currentWordIndex
        (List.range' (prev.currentWordIndex - 2)
          ((min ((scriptWords.length : Int) - (recentWords.length : Int) + 1)
            ((prev.currentWordIndex : Int) + (SEARCH_WINDOW_SIZE : Int))).toNat -
              (prev.currentWordIndex - 2))) with hb | ⟨i, hi, hb⟩
    · rw [hb]
      rw [if_neg (by norm_num [MATCH_THRESHOLD])]
      left
      rfl
    · rw [hb]
      dsimp only
      by_cases hth : adjustedScoreAt scriptWords recentWords prev.currentWordIndex i ≥
          MATCH_THRESHOLD
      · rw [if_pos ⟨hth, Int.natCast_nonneg i⟩]
        by_cases hni : (i : Int) + (recentWords.length : Int) - 1 ≥
            (prev.currentWordIndex : Int) - 1
        · rw [if_pos hni]
          right
          refine ⟨i, ?_, hth, hni, rfl⟩
          rw [List.mem_range'_1] at hi
          omega
        · rw [if_neg hni]
          left
          rfl
      · rw [if_neg (fun hc => hth hc.1)]
        left
        rfl

/-- Each `processTranscript` call either leaves `matchState` unchanged (one
of the guards fired) or runs the matcher update on the last-3-words
extraction of the transcript. -/
theorem processTranscript_matchState (scriptWords : List ScriptWord)
    (rs : MatcherRefs) (now : Nat) (transcript : String) :
    (processTranscript scriptWords rs now transcript).matchState = rs.matchState ∨
      (processTranscript scriptWords rs now transcript).matchState =
        matcherUpdate scriptWords rs.matchState
          (extractLastNWords transcript NGRAM_SIZE) now := by
  simp only [processTranscript]
  by_cases h1 : transcript = "" ∨ scriptWords = []
  · rw [if_pos h1]
    left
    rfl
  · rw [if_neg h1]
    by_cases h2 : transcript = rs.lastTranscript
    · rw [if_pos h2]
      left
      rfl
    · rw [if_neg h2]
      by_cases h3 : now - rs.lastMatchTime < THROTTLE_MS
      · rw [if_pos h3]
        left
        rfl
      · rw [if_neg h3]
        by_cases h4 : 0 < (transcript.length : Int) - (rs.lastTranscript.length : Int) ∧
            (transcript.length : Int) - (rs.lastTranscript.length : Int) < 3
        · rw [if_pos h4]
          left
          rfl
        · rw [if_neg h4]
          by_cases h5 : (extractLastNWords transcript NGRAM_SIZE).length <
              MIN_WORDS_FOR_MATCH
          · rw [if_pos h5]
            left
            rfl
          · rw [if_neg h5]
            right
            rfl

/-- Claim C7 (confirmed): a single `processTranscript` call never decreases
`currentWordIndex` by more than 1 — for every previous state and every input
string, the previous index is at most the new index plus one. -/
theorem processTranscript_backtrack_bound (scriptWords : List ScriptWord)
    (rs : MatcherRefs) (now : Nat) (transcript : String) :
    rs.matchState.currentWordIndex ≤
      (processTranscript scriptWords rs now transcript).matchState.currentWordIndex + 1 := by
  rcases processTranscript_matchState scriptWords rs now transcript with h | h
  · rw [h]
    omega
  · rw [h]
    rcases matcherUpdate_cases scriptWords rs.matchState
        (extractLastNWords transcript NGRAM_SIZE) now with hu | ⟨i, _, _, hni, hu⟩
    · rw [hu]
      omega
    · rw [hu]
      dsimp only
      omega

theorem matcherUpdate_lt_length (scriptWords : List ScriptWord) (prev : MatchState)
    (recentWords : List String) (now : Nat)
    (hprev : prev.currentWordIndex < scriptWords.length) :
    (matcherUpdate scriptWords prev recentWords now).currentWordIndex <
      scriptWords.length := by
  rcases matcherUpdate_cases scriptWords prev recentWords now with hu | ⟨i, hb, _, _, hu⟩
  · rw [hu]
    exact hprev
  · rw [hu]
    dsimp only
    have hmin : min ((scriptWords.length : Int) - (recentWords.length : Int) + 1)
        ((prev.currentWordIndex : Int) + (SEARCH_WINDOW_SIZE : Int)) ≤
        (scriptWords.length : Int) - (recentWords.length : Int) + 1 :=
      min_le_left _ _
    omega

theorem runMatcher_lt_length (scriptWords : List ScriptWord)
    (inputs : List (Nat × String)) :
    ∀ rs : MatcherRefs, rs.matchState.currentWordIndex < scriptWords.length →
      (runMatcher scriptWords rs inputs).matchState.currentWordIndex <
        scriptWords.length := by
  induction inputs with
  | nil =>
    intro rs h
    exact h
  | cons p rest ih =>
    intro rs h
    obtain ⟨now, t⟩ := p
    refine ih (processTranscript scriptWords rs now t) ?_
    rcases processTranscript_matchState scriptWords rs now t with hm | hm
    · rw [hm]
      exact h
    · rw [hm]
      exact matcherUpdate_lt_length scriptWords rs.matchState _ now h

/-- Claim C9 (confirmed): for a script whose tokenization is nonempty,
`currentWordIndex` stays within `[0, scriptLength - 1]` across every sequence
of `processTranscript` calls after `setScript` (every committed position
`i + windowSize - 1` stays below the token count). -/
theorem script_index_in_bounds (script : String) (inputs : List (Nat × String))
    (hne : tokenizeScript script ≠ []) :
    (runMatcher (tokenizeScript script) setScriptRefs inputs).matchState.currentWordIndex ≤
      (tokenizeScript script).length - 1 := by
  have h0 : 0 < (tokenizeScript script).length := List.length_pos.mpr hne
  have h := runMatcher_lt_length (tokenizeScript script) inputs setScriptRefs h0
  omega

/-- Witness for `script_index_in_bounds` on a two-word script. -/
theorem script_index_in_bounds_witness :
    (runMatcher (tokenizeScript "hello world") setScriptRefs
        [(1000, "hello world")]).matchState.currentWordIndex ≤
      (tokenizeScript "hello world").length - 1 :=
  script_index_in_bounds "hello world" [(1000, "hello world")] (by decide)

/-- Claim C2 (amended): whenever `processTranscript` commits a new match, the
`confidence` field of `MatchState` is set to the proximity-ADJUSTED score of
the committed candidate — the raw average per-word similarity multiplied by
the distance bonus — not the raw score (see `confidence_counterexample`). -/
theorem confidence_is_adjusted (scriptWords : List ScriptWord) (rs : MatcherRefs)
    (now : Nat) (transcript : String) :
    (processTranscript scriptWords rs now transcript).matchState = rs.matchState ∨
      ∃ i : Nat,
        (processTranscript scriptWords rs now transcript).matchState.confidence =
          adjustedScoreAt scriptWords (extractLastNWords transcript NGRAM_SIZE)
            rs.matchState.currentWordIndex i ∧
        (processTranscript scriptWords rs now transcript).matchState.currentWordIndex =
          ((i : Int) + ((extractLastNWords transcript NGRAM_SIZE).length : Int) - 1).toNat ∧
        adjustedScoreAt scriptWords (extractLastNWords transcript NGRAM_SIZE)
            rs.matchState.currentWordIndex i ≥ MATCH_THRESHOLD := by
  rcases processTranscript_matchState scriptWords rs now transcript with h | h
  · left
    exact h
  · rcases matcherUpdate_cases scriptWords rs.matchState
        (extractLastNWords transcript NGRAM_SIZE) now with hu | ⟨i, _, hth, _, hu⟩
    · left
      rw [h, hu]
    · right
      refine ⟨i, ?_, ?_, hth⟩ <;> rw [h, hu]

/-! ### A concrete committed match whose stored confidence is the adjusted,
not the raw, score -/

/-- Tokenization of the sample script "hello world foo bar". -/
def sampleScript : List ScriptWord :=
  [⟨"hello", "hello", 0, 0, 5⟩, ⟨"world", "world", 1, 6, 11⟩,
    ⟨"foo", "foo", 2, 12, 15⟩, ⟨"bar", "bar", 3, 16, 19⟩]

theorem tokenize_sample : tokenizeScript "hello world foo bar" = sampleScript := by
  decide

theorem extract_sample :
    extractLastNWords "world foo bar" NGRAM_SIZE = ["world", "foo", "bar"] := by
  decide

theorem sim_world_hello : similarity "world" "hello" = 1 / 5 := by
  rw [similarity, if_neg (by decide), if_neg (by decide)]
  have hl : levenshteinDistance "world".data "hello".data = 4 := by decide
  have hm : max ("world" : String).length ("hello" : String).length = 5 := by decide
  rw [hl, hm]
  norm_num

theorem sim_foo_world : similarity "foo" "world" = 1 / 5 := by
  rw [similarity, if_neg (by decide), if_neg (by decide)]
  have hl : levenshteinDistance "foo".data "world".data = 4 := by decide
  have hm : max ("foo" : String).length ("world" : String).length = 5 := by decide
  rw [hl, hm]
  norm_num

theorem sim_bar_foo : similarity "bar" "foo" = 0 := by
  rw [similarity, if_neg (by decide), if_neg (by decide)]
  have hl : levenshteinDistance "bar".data "foo".data = 3 := by decide
  have hm : max ("bar" : String).length ("foo" : String).length = 3 := by decide
  rw [hl, hm]
  norm_num

theorem matchScore_sample_0 :
    matchScore ["world", "foo", "bar"] (candidateWindow sampleScript 0 3) = 2 / 15 := by
  have hw : candidateWindow sampleScript 0 3 =
      [⟨"hello", "hello", 0, 0, 5⟩, ⟨"world", "world", 1, 6, 11⟩,
        ⟨"foo", "foo", 2, 12, 15⟩] := by decide
  rw [hw, matchScore, if_neg (by decide)]
  simp only [List.zip, List.zipWith, List.map, List.sum_cons, List.sum_nil]
  rw [sim_world_hello, sim_foo_world, sim_bar_foo]
  norm_num

theorem matchScore_sample_1 :
    matchScore ["world", "foo", "bar"] (candidateWindow sampleScript 1 3) = 1 := by
  have hw : candidateWindow sampleScript 1 3 =
      [⟨"world", "world", 1, 6, 11⟩, ⟨"foo", "foo", 2, 12, 15⟩,
        ⟨"bar", "bar", 3, 16, 19⟩] := by decide
  rw [hw, matchScore, if_neg (by decide)]
  simp only [List.zip, List.zipWith, List.map, List.sum_cons, List.sum_nil]
  have h1 : similarity "world" "world" = 1 := by rw [similarity, if_pos rfl]
  have h2 : similarity "foo" "foo" = 1 := by rw [similarity, if_pos rfl]
  have h3 : similarity "bar" "bar" = 1 := by rw [similarity, if_pos rfl]
  rw [h1, h2, h3]
  norm_num

theorem adjusted_sample_0 :
    adjustedScoreAt sampleScript ["world", "foo", "bar"] 0 0 = 2 / 15 := by
  rw [adjustedScoreAt, distanceBonus]
  have hw : (["world", "foo", "bar"] : List String).length = 3 := rfl
  rw [hw, matchScore_sample_0]
  norm_num [SEARCH_WINDOW_SIZE]

theorem adjusted_sample_1 :
    adjustedScoreAt sampleScript ["world", "foo", "bar"] 0 1 = 299 / 300 := by
  rw [adjustedScoreAt, distanceBonus]
  have hw : (["world", "foo", "bar"] : List String).length = 3 := rfl
  rw [hw, matchScore_sample_1]
  norm_num [SEARCH_WINDOW_SIZE]

theorem bestMatch_sample :
    bestMatch sampleScript ["world", "foo", "bar"] 0 [0, 1] = (1, 299 / 300) := by
  rw [bestMatch]
  simp only [List.foldl_cons, List.foldl_nil, adjusted_sample_0, adjusted_sample_1]
  norm_num

theorem matcherUpdate_sample :
    matcherUpdate sampleScript ⟨0, 0, 0, false⟩ ["world", "foo", "bar"] 1000 =
      ⟨3, 299 / 300, 1000, true⟩ := by
  rw [matcherUpdate]
  have hlen : ((sampleScript.length : Nat) : Int) = 4 := by decide
  rw [hlen]
  norm_num [SEARCH_WINDOW_SIZE, MATCH_THRESHOLD]
  rw [show List.range' 0 (Int.toNat 2) = [0, 1] from rfl]
  rw [bestMatch_sample]
  norm_num
  decide

/-- Claim C2 as stated is false on the code: with script
"hello world foo bar" and transcript "world foo bar" processed from the
initial state, a match commits (isActive becomes true) at candidate index 1,
whose raw average per-word similarity score is 1, yet the stored confidence
is the proximity-adjusted score `1 × (1 − 1/30 × 0.1) = 299/300 ≠ 1`. -/
theorem confidence_counterexample :
    (processTranscript (tokenizeScript "hello world foo bar") setScriptRefs 1000
        "world foo bar").matchState.confidence =
        adjustedScoreAt (tokenizeScript "hello world foo bar")
          ["world", "foo", "bar"] 0 1 ∧
      adjustedScoreAt (tokenizeScript "hello world foo bar")
        ["world", "foo", "bar"] 0 1 = 299 / 300 ∧
      matchScore ["world", "foo", "bar"]
        (candidateWindow (tokenizeScript "hello world foo bar") 1 3) = 1 ∧
      ((299 : ℚ) / 300) ≠ 1 ∧
      (processTranscript (tokenizeScript "hello world foo bar") setScriptRefs 1000
        "world foo bar").matchState.isActive = true := by
  have hpt : (processTranscript sampleScript setScriptRefs
      1000 "world foo bar").matchState = ⟨3, 299 / 300, 1000, true⟩ := by
    simp only [processTranscript]
    rw [if_neg (by decide), if_neg (by decide), if_neg (by decide),
      if_neg (by decide)]
    rw [extract_sample]
    rw [if_neg (by decide)]
    dsimp only [setScriptRefs]
    exact matcherUpdate_sample
  rw [tokenize_sample, hpt, adjusted_sample_1, matchScore_sample_1]
  refine ⟨rfl, rfl, rfl, by norm_num, rfl⟩

end Teleprompter
